import Mathlib

/-!
Verification development for the GraphProcessing repository
(src/Graph/graph.py and src/example.py).

Python dictionaries are modelled as insertion-ordered association lists
over `String` keys with `Value` payloads; dictionary values carry value
semantics (Python `.copy()` becomes the identity).  Pipeline stages are
modelled as functions from the bag to `Option Dict`: `none` covers both a
raised exception and a non-mapping return, since `Pipe.__call__` converts
both into the same logged failure and `None` result.
-/

namespace GraphProcessing

/-- Value model for the payloads stored in Python dicts: integers, strings,
lists, and nested dicts.  The code only ever branches on `isinstance(x, list)`,
so this covers every distinction the program makes. -/
inductive Value where
  | int  : Int → Value
  | str  : String → Value
  | list : List Value → Value
  | dict : List (String × Value) → Value

/-- A Python dict: insertion-ordered association list with unique keys
(uniqueness is an invariant of real dicts, stated as a hypothesis where
a proof needs it). -/
abbrev Dict := List (String × Value)

/-- Lookup of a key, first occurrence (Python `d[k]` / `d.get(k)`). -/
def dictFind : Dict → String → Option Value
  | [], _ => none
  | (k', v) :: rest, k => if k' = k then some v else dictFind rest k

/-- Key membership (Python `k in d`). -/
def dictHasKey (d : Dict) (k : String) : Bool :=
  (dictFind d k).isSome

/-- Python `d[k] = v`: replace the value in place if the key exists
(keeping its position), otherwise append the new key at the end. -/
def dictSet (d : Dict) (k : String) (v : Value) : Dict :=
  if dictHasKey d k then
    d.map (fun p => if p.1 = k then (k, v) else p)
  else
    d ++ [(k, v)]

/-- Python `d.update(other)`: fold `dictSet` over `other` in insertion
order; later keys overwrite earlier values. -/
def dictUpdate (d other : Dict) : Dict :=
  other.foldl (fun acc p => dictSet acc p.1 p.2) d

/-- Keys of a dict, in order. -/
def dictKeys (d : Dict) : List String := d.map Prod.fst

/-- The unique-keys invariant of a real Python dict. -/
def keysNodup (d : Dict) : Prop := (dictKeys d).Nodup

/-- A pipeline stage: the function's name (used for trace entries) plus its
behaviour on the bag.  `fn bag = none` models both "the stage raised" and
"the stage returned a non-mapping", which `Pipe.__call__` treats alike. -/
structure Stage where
  name : String
  fn : Dict → Option Dict

/-- The trace entry appended after a successful stage call:
`{"function": func.__name__, "output": result.copy()}`. -/
def traceEntry (name : String) (result : Dict) : Value :=
  Value.dict [("function", Value.str name), ("output", Value.dict result)]

/-- The trace entry recorded at construction:
`{"function": "input", "output": self.value.copy()}`. -/
def inputEntry (v : Dict) : Value :=
  Value.dict [("function", Value.str "input"), ("output", Value.dict v)]

/-- `Pipe.__init__`: after `super().__init__`, if `trace` is set, store the
initial snapshot list into the bag under the key `"trace"`.  The snapshot is
taken before the `"trace"` key itself is inserted. -/
def pipeInit (v : Dict) (trace : Bool) : Dict :=
  if trace then dictSet v "trace" (Value.list [inputEntry v]) else v

/-- `Pipe.__call__`: run the stages in order over the bag.  Returns the
result (`some` of a copy of the bag on success, `none` on failure) together
with the bag as left behind (mutations before a failure persist).  On each
stage: call it with the bag; on `none` abort with the bag unchanged by this
stage; on `some result` merge `result` into the bag, then, when tracing,
append a trace entry to `bag["trace"]` — if that slot no longer holds a
list the append raises, which the `except` turns into a `None` result. -/
def pipeRun : List Stage → Dict → Bool → Option Dict × Dict
  | [], v, _ => (some v, v)
  | f :: rest, v, trace =>
    match f.fn v with
    | none => (none, v)
    | some result =>
      let v1 := dictUpdate v result
      if trace then
        match dictFind v1 "trace" with
        | some (Value.list l) =>
            pipeRun rest (dictSet v1 "trace" (Value.list (l ++ [traceEntry f.name result]))) trace
        | _ => (none, v1)
      else
        pipeRun rest v1 trace

/-- The body of `MixerNode.custom_merge`'s loop for one `dict2` item:
if the key is already present, combine by the list-flattening rule
(extend, append, prepend-then-extend, or pair up), otherwise insert. -/
def mergeStep (merged : Dict) (p : String × Value) : Dict :=
  match dictFind merged p.1 with
  | some mv =>
    match mv, p.2 with
    | Value.list l1, Value.list l2 => dictSet merged p.1 (Value.list (l1 ++ l2))
    | Value.list l1, v => dictSet merged p.1 (Value.list (l1 ++ [v]))
    | mv1, Value.list l2 => dictSet merged p.1 (Value.list (mv1 :: l2))
    | mv1, v => dictSet merged p.1 (Value.list [mv1, v])
  | none => dictSet merged p.1 p.2

/-- `MixerNode.custom_merge`: start from a copy of `dict1`, then fold
`mergeStep` over `dict2.items()` in insertion order. -/
def custom_merge (dict1 dict2 : Dict) : Dict :=
  dict2.foldl mergeStep dict1

/-- The three concrete `Node` subclasses with a `process` implementation. -/
inductive NodeKind where
  | dataNode
  | processingNode
  | mixerNode

/-- The owned pipeline of a `ProcessingNode` (a `Pipe` instance): its bag,
trace flag, and stage list. -/
structure PipeState where
  value : Dict
  trace : Bool
  functions : List Stage

/-- Per-node mutable state: the variant tag, `data`, `data_history`
(used by `DataNode`), and the optional pipeline (used by `ProcessingNode`). -/
structure NodeState where
  kind : NodeKind
  data : Option Dict
  data_history : List Dict
  pipeline : Option PipeState

/-- Whole-graph mutable state.  Nodes are addressed by their unique `name`
(the hash identity the code uses); `inputs`/`outputs` are the per-node edge
sets, kept as insertion-ordered deduplicated lists. -/
structure GraphState where
  nodes : String → NodeState
  inputs : String → List String
  outputs : String → List String

/-- Replace the state of one node. -/
def setNode (name : String) (n : NodeState) (s : GraphState) : GraphState :=
  { s with nodes := fun m => if m = name then n else s.nodes m }

/-- Assign a node's `data` field (the `output.data = ...` push). -/
def setNodeData (name : String) (v : Option Dict) (s : GraphState) : GraphState :=
  setNode name { s.nodes name with data := v } s

/-- The raw mutation `self.inputs.add(node)`. -/
def inputsAdd (self node : String) (s : GraphState) : GraphState :=
  { s with inputs := fun m => if m = self then s.inputs self ++ [node] else s.inputs m }

/-- The raw mutation `self.outputs.add(node)`. -/
def outputsAdd (self node : String) (s : GraphState) : GraphState :=
  { s with outputs := fun m => if m = self then s.outputs self ++ [node] else s.outputs m }

mutual

/-- `Node.add_input` / `Node.add_output`: mutually recursive registration
with a membership guard on each side.  The recursion in the code terminates
because the guard sees the element added before the cross-call; the `fuel`
argument makes that termination explicit (fuel 3 already closes the guard,
proved below as `addOutput_fuel_stable`). -/
def addInput : Nat → String → String → GraphState → GraphState
  | 0, _, _, s => s
  | fuel + 1, self, node, s =>
    if node ∈ s.inputs self then s
    else addOutput fuel node self (inputsAdd self node s)

/-- See `addInput`. -/
def addOutput : Nat → String → String → GraphState → GraphState
  | 0, _, _, s => s
  | fuel + 1, self, node, s =>
    if node ∈ s.outputs self then s
    else addInput fuel node self (outputsAdd self node s)

end

/-- The atomic connect operation of the spec: the code's `a.add_output(b)`
(fuel 3 is the depth at which the mutual recursion's guard closes). -/
def connect (a b : String) (s : GraphState) : GraphState :=
  addOutput 3 a b s

/-- The inner loop of `Layer.connect_to`: wire one node to every node of
the next layer, in stored order. -/
def connectRow (a : String) (l2 : List String) (s : GraphState) : GraphState :=
  l2.foldl (fun acc b => connect a b acc) s

/-- `Layer.connect_to`: for every node of this layer, `add_output` to every
node of the next layer, in stored order. -/
def connectTo (l1 l2 : List String) (s : GraphState) : GraphState :=
  l1.foldl (fun acc a => connectRow a l2 acc) s

/-- The value pushed to an output neighbor:
`self.data.copy() if self.data else None`.  Python truthiness makes an
empty dict push `None` just like an absent one. -/
def pushValue : Option Dict → Option Dict
  | some d => if d.isEmpty then none else some d
  | none => none

/-- The body of `ProcessingNode.process` before propagation: when both
`data` and a pipeline are present, merge `data` into the pipeline bag, run
the pipeline (its bag keeps the mutations), and replace `data` with the
result only when the result is truthy (a non-`None`, non-empty dict). -/
def processingStep (name : String) (s : GraphState) : GraphState :=
  let n := s.nodes name
  match n.data, n.pipeline with
  | some d, some p =>
    let bag := dictUpdate p.value d
    let r := pipeRun p.functions bag p.trace
    let n1 := { n with pipeline := some { p with value := r.2 } }
    let n2 :=
      match r.1 with
      | some result => if result.isEmpty then n1 else { n1 with data := some result }
      | none => n1
    setNode name n2 s
  | _, _ => s

/-- The body of `DataNode.process` before propagation: when `data` is not
`None`, append a copy of it to `data_history`. -/
def dataStep (name : String) (s : GraphState) : GraphState :=
  let n := s.nodes name
  match n.data with
  | some d => setNode name { n with data_history := n.data_history ++ [d] } s
  | none => s

/-- The propagation loop shared by `DataNode.process` and
`ProcessingNode.process`, parameterized by the recursive `process` call:
for each output in order, re-read `self.data`, push it (empty or absent
pushes `None`), and recursively process the neighbor; an exception from the
recursive call aborts the loop and propagates. -/
def processOutputsAux (proc : String → GraphState → GraphState × Bool) (self : String) :
    List String → GraphState → GraphState × Bool
  | [], s => (s, true)
  | o :: rest, s =>
    let s1 := setNodeData o (pushValue ((s.nodes self).data)) s
    match proc o s1 with
    | (s2, true) => processOutputsAux proc self rest s2
    | (s2, false) => (s2, false)

/-- `process()` of a node, dispatched on its variant, returning the state
plus `true` when the call returned normally and `false` when an exception
escaped it.  Fuel 0 models the stack exhaustion of unbounded recursion
(a `RecursionError`, i.e. an escaping exception).

`MixerNode.process` with two or more inputs evaluates `self.inputs[0]`;
`self.inputs` is a `weakref.WeakSet`, which does not support subscripting,
so the call raises `TypeError` before touching any state.  With fewer than
two inputs it only logs a warning and returns. -/
def processNode : Nat → String → GraphState → GraphState × Bool
  | 0, _, s => (s, false)
  | fuel + 1, name, s =>
    match (s.nodes name).kind with
    | NodeKind.dataNode =>
        let s1 := dataStep name s
        processOutputsAux (fun o s2 => processNode fuel o s2) name (s1.outputs name) s1
    | NodeKind.processingNode =>
        let s1 := processingStep name s
        processOutputsAux (fun o s2 => processNode fuel o s2) name (s1.outputs name) s1
    | NodeKind.mixerNode =>
        if 2 ≤ (s.inputs name).length then (s, false) else (s, true)

/-- The propagation loop at a given fuel level. -/
def processOutputs (fuel : Nat) (self : String) (outs : List String) (s : GraphState) :
    GraphState × Bool :=
  processOutputsAux (fun o s2 => processNode fuel o s2) self outs s

/-- `Layer.process`: call `process()` on every node in stored order, with a
per-node `try`/`except` that swallows any escaping exception (keeping the
state the failed call left behind). -/
def layerProcess (fuel : Nat) (nodes : List String) (s : GraphState) : GraphState :=
  nodes.foldl (fun acc n => (processNode fuel n acc).1) s

/-! Instrumentation and observation helpers. -/

/-- The ordered list of bags handed to the stage calls of one
`Pipe.__call__` run: instruments `pipeRun`, step for step, recording the
argument of each `func(**self.value)` call. -/
def invocationBags : List Stage → Dict → Bool → List Dict
  | [], _, _ => []
  | f :: rest, v, trace =>
    v ::
      (match f.fn v with
      | none => []
      | some result =>
        let v1 := dictUpdate v result
        if trace then
          match dictFind v1 "trace" with
          | some (Value.list l) =>
              invocationBags rest (dictSet v1 "trace" (Value.list (l ++ [traceEntry f.name result]))) trace
          | _ => []
        else
          invocationBags rest v1 trace)

/-- The recorded trace of a bag, when the "trace" slot holds a list. -/
def traceList (d : Dict) : Option (List Value) :=
  match dictFind d "trace" with
  | some (Value.list l) => some l
  | _ => none

/-- The "function" field of a trace entry. -/
def entryFunction : Value → Option Value
  | Value.dict e => dictFind e "function"
  | _ => none

/-- A stage whose returned mappings never carry the key "trace" (so it
cannot clobber the trace slot stored inside the bag). -/
def noTraceKey (f : Stage) : Prop :=
  ∀ d r, f.fn d = some r → dictHasKey r "trace" = false

/-- Edge symmetry: A has B among its outputs exactly when B has A among
its inputs. -/
def EdgeSymmetric (s : GraphState) : Prop :=
  ∀ x y, y ∈ s.outputs x ↔ x ∈ s.inputs y

/-- The history growth caused by one `DataNode.process` call with the
given `data`: one snapshot when data is present, none otherwise. -/
def histApp : Option Dict → List Dict
  | some d => [d]
  | none => []

/-- Merge of two values found under the same key, written after the spec's
merge rule: two sequences concatenate; sequence plus scalar appends the
scalar; scalar plus sequence prepends the scalar as a one-element sequence;
two scalars become the ordered pair. -/
def specMergeValue : Value → Value → Value
  | Value.list l1, Value.list l2 => Value.list (l1 ++ l2)
  | Value.list l1, v => Value.list (l1 ++ [v])
  | v, Value.list l2 => Value.list (v :: l2)
  | v1, v2 => Value.list [v1, v2]

/-! Concrete nodes and stages from src/example.py, and the concrete states
used by closed theorems. -/

/-- An uninitialized node slot. -/
def defaultNode : NodeState := ⟨NodeKind.dataNode, none, [], none⟩

/-- Integer read with default: Python's `data.get(k, dft)` followed by an
arithmetic use; a non-integer value makes the arithmetic raise, which the
stage surfaces as a failed call. -/
def getIntOr (d : Dict) (k : String) (dft : Int) : Option Int :=
  match dictFind d k with
  | some (Value.int n) => some n
  | none => some dft
  | some _ => none

/-- `add_value` from src/example.py: `passthrough = passthrough + value`,
returning the whole updated bag. -/
def add_value (value : Int) (data : Dict) : Option Dict :=
  (getIntOr data "passthrough" 0).map fun n => dictSet data "passthrough" (Value.int (n + value))

/-- `square_value` from src/example.py: `passthrough = passthrough ** 2`,
returning the whole updated bag. -/
def square_value (data : Dict) : Option Dict :=
  (getIntOr data "passthrough" 0).map fun n => dictSet data "passthrough" (Value.int (n * n))

/-- The 4-node linear chain of the end-to-end property: an input DataNode
holding passthrough = 10, a ProcessingNode whose single stage adds 5, a
ProcessingNode whose single stage squares, and a final output DataNode. -/
def chainState : GraphState where
  nodes := fun name =>
    if name = "InputNode" then
      ⟨NodeKind.dataNode, some [("passthrough", Value.int 10)], [], none⟩
    else if name = "AdderNode" then
      ⟨NodeKind.processingNode, none, [], some ⟨[], false, [⟨"add_value", add_value 5⟩]⟩⟩
    else if name = "SquarerNode" then
      ⟨NodeKind.processingNode, none, [], some ⟨[], false, [⟨"square_value", square_value⟩]⟩⟩
    else if name = "OutputNode" then
      ⟨NodeKind.dataNode, none, [], none⟩
    else defaultNode
  inputs := fun name =>
    if name = "AdderNode" then ["InputNode"]
    else if name = "SquarerNode" then ["AdderNode"]
    else if name = "OutputNode" then ["SquarerNode"]
    else []
  outputs := fun name =>
    if name = "InputNode" then ["AdderNode"]
    else if name = "AdderNode" then ["SquarerNode"]
    else if name = "SquarerNode" then ["OutputNode"]
    else []

/-- The chain state after one `process()` of the entry layer. -/
def chainResult : GraphState := layerProcess 10 ["InputNode"] chainState

/-- A MixerNode with the two inputs "a" and "b" (both holding data) and the
output "o": the concrete input on which `MixerNode.process` evaluates
`self.inputs[0]`. -/
def mixerTwoInputs : GraphState where
  nodes := fun name =>
    if name = "MixerNode" then ⟨NodeKind.mixerNode, none, [], none⟩
    else if name = "a" then ⟨NodeKind.dataNode, some [("x", Value.int 1)], [], none⟩
    else if name = "b" then ⟨NodeKind.dataNode, some [("y", Value.int 2)], [], none⟩
    else defaultNode
  inputs := fun name => if name = "MixerNode" then ["a", "b"] else []
  outputs := fun name =>
    if name = "a" ∨ name = "b" then ["MixerNode"]
    else if name = "MixerNode" then ["o"] else []

/-- A DataNode "d" whose data is the empty dict, wired to the output "o"
(which initially holds some data). -/
def emptyDataPushState : GraphState where
  nodes := fun name =>
    if name = "d" then ⟨NodeKind.dataNode, some [], [], none⟩
    else if name = "o" then ⟨NodeKind.dataNode, some [("z", Value.int 7)], [], none⟩
    else defaultNode
  inputs := fun name => if name = "o" then ["d"] else []
  outputs := fun name => if name = "d" then ["o"] else []

/-- A ProcessingNode "t" whose data is the empty dict and whose single
stage raises, wired to the output "o" (which initially holds some data). -/
def emptyProcessingPushState : GraphState where
  nodes := fun name =>
    if name = "t" then
      ⟨NodeKind.processingNode, some [], [], some ⟨[], false, [⟨"boom", fun _ => none⟩]⟩⟩
    else if name = "o" then ⟨NodeKind.dataNode, some [("z", Value.int 7)], [], none⟩
    else defaultNode
  inputs := fun name => if name = "o" then ["t"] else []
  outputs := fun name => if name = "t" then ["o"] else []

/-- A stage that returns the mapping with the single key "trace" mapped to
an empty list: a legal dict return that overwrites the trace slot. -/
def clobberStage : Stage := ⟨"clobber", fun _ => some [("trace", Value.list [])]⟩

/-- A stage that returns the empty mapping (a legal no-op). -/
def noopStage (nm : String) : Stage := ⟨nm, fun _ => some []⟩

/-- A fresh edge state: no node has any edge. -/
def freshEdges : GraphState := ⟨fun _ => defaultNode, fun _ => [], fun _ => []⟩

/-- A DataNode "p" holding data, wired to the fresh leaf DataNode "q". -/
def fanoutState : GraphState where
  nodes := fun name =>
    if name = "p" then ⟨NodeKind.dataNode, some [("k", Value.int 3)], [], none⟩
    else if name = "q" then ⟨NodeKind.dataNode, none, [], none⟩
    else defaultNode
  inputs := fun name => if name = "q" then ["p"] else []
  outputs := fun name => if name = "p" then ["q"] else []

/-- A ProcessingNode "t" with non-empty stale data and a failing single
stage, wired to the fresh leaf DataNode "o". -/
def staleProcState : GraphState where
  nodes := fun name =>
    if name = "t" then
      ⟨NodeKind.processingNode, some [("k", Value.int 9)], [],
        some ⟨[], false, [⟨"boom", fun _ => none⟩]⟩⟩
    else if name = "o" then ⟨NodeKind.dataNode, none, [], none⟩
    else defaultNode
  inputs := fun name => if name = "o" then ["t"] else []
  outputs := fun name => if name = "t" then ["o"] else []

/-- A stage that stores 1 under the key "x". -/
def setXStage : Stage := ⟨"setx", fun d => some (dictSet d "x" (Value.int 1))⟩

/-- A stage that always raises (or returns a non-mapping). -/
def failStage : Stage := ⟨"boom", fun _ => none⟩

/-- A stage that stores 2 under the key "y". -/
def setYStage : Stage := ⟨"sety", fun d => some (dictSet d "y" (Value.int 2))⟩

/-! Dictionary lemmas. -/

theorem dictFind_cons (p : String × Value) (rest : Dict) (k : String) :
    dictFind (p :: rest) k = if p.1 = k then some p.2 else dictFind rest k := rfl

theorem dictFind_map_set (d : Dict) (k : String) (v : Value) :
    dictFind (d.map fun p => if p.1 = k then (k, v) else p) k =
      if dictHasKey d k then some v else none := by
  induction d with
  | nil => simp [dictFind, dictHasKey]
  | cons p rest ih =>
    rw [List.map_cons]
    by_cases h : p.1 = k
    · rw [if_pos h, dictFind_cons]
      simp [dictHasKey, dictFind_cons, h]
    · rw [if_neg h, dictFind_cons, if_neg h, ih]
      simp only [dictHasKey, dictFind_cons, if_neg h]

theorem dictFind_append (d e : Dict) (k : String) :
    dictFind (d ++ e) k = ((dictFind d k).or (dictFind e k)) := by
  induction d with
  | nil => simp [dictFind]
  | cons p rest ih =>
    rw [List.cons_append, dictFind_cons, dictFind_cons]
    by_cases h : p.1 = k
    · rw [if_pos h, if_pos h]; rfl
    · rw [if_neg h, if_neg h, ih]

theorem dictHasKey_false_iff (d : Dict) (k : String) :
    dictHasKey d k = false ↔ dictFind d k = none := by
  unfold dictHasKey
  cases dictFind d k <;> simp

theorem dictFind_set_self (d : Dict) (k : String) (v : Value) :
    dictFind (dictSet d k v) k = some v := by
  unfold dictSet
  by_cases h : dictHasKey d k
  · simp [h, dictFind_map_set]
  · have hf : dictFind d k = none := (dictHasKey_false_iff d k).mp (by simpa using h)
    simp [h, dictFind_append, hf, dictFind]

theorem dictFind_map_set_other (d : Dict) (k k1 : String) (v : Value) (h : k1 ≠ k) :
    dictFind (d.map fun p => if p.1 = k then (k, v) else p) k1 = dictFind d k1 := by
  induction d with
  | nil => simp [dictFind]
  | cons p rest ih =>
    rw [List.map_cons, dictFind_cons, dictFind_cons]
    by_cases hp : p.1 = k
    · have hk1 : ¬(k = k1) := fun hk => h hk.symm
      rw [if_pos hp, ih]
      show (if k = k1 then some v else dictFind rest k1) = _
      rw [if_neg hk1, if_neg (fun hq : p.1 = k1 => hk1 (hp ▸ hq))]
    · rw [if_neg hp, ih]

theorem dictFind_set_other (d : Dict) (k k1 : String) (v : Value) (h : k1 ≠ k) :
    dictFind (dictSet d k v) k1 = dictFind d k1 := by
  unfold dictSet
  by_cases hk : dictHasKey d k
  · simp [hk, dictFind_map_set_other d k k1 v h]
  · have hkk : ¬(k = k1) := fun hh => h hh.symm
    simp only [hk, if_neg, Bool.false_eq_true, if_false]
    rw [dictFind_append, dictFind_cons, if_neg hkk]
    cases dictFind d k1 <;> rfl

theorem dictHasKey_set (d : Dict) (k k1 : String) (v : Value) :
    dictHasKey (dictSet d k v) k1 = if k1 = k then true else dictHasKey d k1 := by
  by_cases h : k1 = k
  · subst h; simp [dictHasKey, dictFind_set_self]
  · simp [dictHasKey, dictFind_set_other d k k1 v h, h]

theorem dictHasKey_update (r : Dict) (k : String) :
    ∀ d : Dict, dictHasKey d k = true → dictHasKey (dictUpdate d r) k = true := by
  induction r with
  | nil => intro d h; simpa [dictUpdate] using h
  | cons p rest ih =>
    intro d h
    show dictHasKey (dictUpdate (dictSet d p.1 p.2) rest) k = true
    exact ih _ (by rw [dictHasKey_set]; by_cases hk : k = p.1 <;> simp [hk, h])

theorem dictFind_update_of_not_hasKey (r : Dict) (k : String) :
    ∀ d : Dict, dictHasKey r k = false →
      dictFind (dictUpdate d r) k = dictFind d k := by
  induction r with
  | nil => intro d _; simp [dictUpdate]
  | cons p rest ih =>
    intro d h
    have hp : p.1 ≠ k := by
      intro hk
      rw [dictHasKey, dictFind_cons, if_pos hk] at h
      simp at h
    have hrest : dictHasKey rest k = false := by
      rw [dictHasKey, dictFind_cons, if_neg hp] at h
      exact h
    show dictFind (dictUpdate (dictSet d p.1 p.2) rest) k = dictFind d k
    rw [ih _ hrest, dictFind_set_other _ _ _ _ (fun hk => hp hk.symm)]

theorem dictFind_eq_none_of_not_mem_keys (d : Dict) (k : String)
    (h : k ∉ dictKeys d) :
    dictFind d k = none := by
  induction d with
  | nil => rfl
  | cons p rest ih =>
    rw [show dictKeys (p :: rest) = p.1 :: dictKeys rest from rfl, List.mem_cons] at h
    push_neg at h
    rw [dictFind_cons, if_neg (fun hh : p.1 = k => h.1 hh.symm), ih h.2]

/-! Pipeline lemmas. -/

theorem pipeRun_cons (f : Stage) (rest : List Stage) (v : Dict) (tr : Bool) :
    pipeRun (f :: rest) v tr =
      match f.fn v with
      | none => (none, v)
      | some result =>
        let v1 := dictUpdate v result
        if tr then
          match dictFind v1 "trace" with
          | some (Value.list l) =>
              pipeRun rest (dictSet v1 "trace" (Value.list (l ++ [traceEntry f.name result]))) tr
          | _ => (none, v1)
        else
          pipeRun rest v1 tr := rfl

theorem pipeRun_append (l1 l2 : List Stage) (tr : Bool) :
    ∀ v : Dict,
      pipeRun (l1 ++ l2) v tr =
        match pipeRun l1 v tr with
        | (some _, b) => pipeRun l2 b tr
        | (none, b) => (none, b) := by
  induction l1 with
  | nil => intro v; rfl
  | cons f rest ih =>
    intro v
    rw [List.cons_append, pipeRun_cons, pipeRun_cons]
    cases hf : f.fn v with
    | none => rfl
    | some result =>
      dsimp only
      by_cases htr : tr = true
      · rw [if_pos htr, if_pos htr]
        cases hfind : dictFind (dictUpdate v result) "trace" with
        | none => rfl
        | some w =>
          cases w with
          | list l => exact ih _
          | int n => rfl
          | str s0 => rfl
          | dict d0 => rfl
      · rw [if_neg htr, if_neg htr]
        exact ih _

/-- One traced stage call with an intact trace slot and a stage that cannot
clobber it: on success the trace list grows by exactly this stage's entry. -/
theorem pipeRun_trace_step (f : Stage) (rest : List Stage) (v : Dict) (l : List Value)
    (hv : dictFind v "trace" = some (Value.list l)) (hf : noTraceKey f) :
    pipeRun (f :: rest) v true =
      match f.fn v with
      | none => (none, v)
      | some result =>
          pipeRun rest
            (dictSet (dictUpdate v result) "trace"
              (Value.list (l ++ [traceEntry f.name result]))) true := by
  rw [pipeRun_cons]
  cases hfn : f.fn v with
  | none => rfl
  | some result =>
    have hkeep : dictFind (dictUpdate v result) "trace" = some (Value.list l) := by
      rw [dictFind_update_of_not_hasKey _ _ _ (hf v result hfn), hv]
    dsimp only
    rw [if_pos rfl, hkeep]

/-- Successful traced runs of trace-preserving stages append one entry per
stage, in invocation order, to the trace found at the start. -/
theorem pipeRun_trace_all (fs : List Stage) :
    ∀ (v : Dict) (l : List Value) (r b : Dict),
      (∀ f ∈ fs, noTraceKey f) →
      dictFind v "trace" = some (Value.list l) →
      pipeRun fs v true = (some r, b) →
      ∃ outs : List Dict, outs.length = fs.length ∧
        dictFind b "trace" =
          some (Value.list (l ++ List.zipWith (fun (f : Stage) o => traceEntry f.name o) fs outs)) := by
  induction fs with
  | nil =>
    intro v l r b _ hv hrun
    have hb : v = b := congrArg Prod.snd hrun
    exact ⟨[], rfl, by simpa using hb ▸ hv⟩
  | cons f rest ih =>
    intro v l r b hall hv hrun
    rw [pipeRun_trace_step f rest v l hv (hall f (List.mem_cons_self f rest))] at hrun
    cases hfn : f.fn v with
    | none => rw [hfn] at hrun; cases hrun
    | some result =>
      rw [hfn] at hrun
      obtain ⟨outs, hlen, hfindb⟩ :=
        ih _ (l ++ [traceEntry f.name result]) r b
          (fun g hg => hall g (List.mem_cons_of_mem f hg))
          (dictFind_set_self _ _ _) hrun
      exact ⟨result :: outs, by simpa using hlen, by simpa [List.append_assoc] using hfindb⟩

/-- Claim C2: a failing stage (raising or returning a non-mapping) aborts
the run at once — no later stage runs, the result is absent, and the bag
keeps exactly the mutations of the stages before the failing one. -/
theorem pipeRun_fail_fast (pre : List Stage) (f : Stage) (post : List Stage)
    (v b1 r1 : Dict) (tr : Bool)
    (hpre : pipeRun pre v tr = (some r1, b1))
    (hf : f.fn b1 = none) :
    pipeRun (pre ++ f :: post) v tr = (none, b1) := by
  rw [pipeRun_append, hpre]
  show pipeRun (f :: post) b1 tr = (none, b1)
  rw [pipeRun_cons, hf]

/-- Witness for C2 at a concrete pipeline: one mutating stage, then a
failing stage, then a never-reached stage. -/
theorem pipeRun_fail_fast_witness :
    pipeRun [setXStage, failStage, setYStage] [] false = (none, [("x", Value.int 1)]) :=
  pipeRun_fail_fast [setXStage] failStage [setYStage] [] [("x", Value.int 1)]
    [("x", Value.int 1)] false rfl rfl

theorem entryFunction_traceEntry (nm : String) (r : Dict) :
    entryFunction (traceEntry nm r) = some (Value.str nm) := rfl

theorem entryFunction_inputEntry (v : Dict) :
    entryFunction (inputEntry v) = some (Value.str "input") := rfl

/-- Claim C5 counterexample: tracing enabled, three stages, successful run,
yet the recorded trace has length 3, not 4 — the first stage legally
returned the mapping with key "trace", which `update` merged over the trace
slot, erasing the initial snapshot. -/
theorem trace_clobbered_by_stage_cex :
    (pipeRun [clobberStage, noopStage "s2", noopStage "s3"] (pipeInit [] true) true).1.isSome
        = true ∧
    (traceList
        (pipeRun [clobberStage, noopStage "s2", noopStage "s3"] (pipeInit [] true) true).2).map
        List.length = some 3 ∧
    ¬ (traceList
        (pipeRun [clobberStage, noopStage "s2", noopStage "s3"] (pipeInit [] true) true).2).map
        List.length = some 4 := by
  exact ⟨rfl, rfl, by decide⟩

/-- Claim C5 (amended): for a pipeline constructed with tracing enabled and
exactly three stages none of which returns a mapping containing the key
"trace", a successful run leaves a trace of length 4 — the initial snapshot
(equal to the bag at construction time) followed by one entry per stage in
invocation order. -/
theorem trace_after_three_stages (f1 f2 f3 : Stage) (v0 r b : Dict)
    (h1 : noTraceKey f1) (h2 : noTraceKey f2) (h3 : noTraceKey f3)
    (hrun : pipeRun [f1, f2, f3] (pipeInit v0 true) true = (some r, b)) :
    (traceList b).map List.length = some 4 ∧
    (traceList b).bind List.head? = some (inputEntry v0) ∧
    (traceList b).map (List.map entryFunction) =
      some [some (Value.str "input"), some (Value.str f1.name),
            some (Value.str f2.name), some (Value.str f3.name)] := by
  have hb0 : dictFind (pipeInit v0 true) "trace" = some (Value.list [inputEntry v0]) :=
    dictFind_set_self v0 "trace" _
  obtain ⟨outs, hlen, hfindb⟩ :=
    pipeRun_trace_all [f1, f2, f3] (pipeInit v0 true) [inputEntry v0] r b
      (by
        intro f hfm
        simp only [List.mem_cons, List.mem_singleton] at hfm
        rcases hfm with h | h | h | h
        · exact h ▸ h1
        · exact h ▸ h2
        · exact h ▸ h3
        · cases h)
      hb0 hrun
  match outs, hlen with
  | [o1, o2, o3], _ =>
    refine ⟨?_, ?_, ?_⟩
    · rw [traceList, hfindb]; rfl
    · rw [traceList, hfindb]; rfl
    · rw [traceList, hfindb]
      simp [entryFunction_traceEntry, entryFunction_inputEntry]

/-- The run-time invariant behind C10: starting from a bag that carries the
key "trace", every stage invocation of the run receives a bag carrying
"trace", and a successful run returns and leaves bags carrying "trace". -/
theorem trace_key_invariant (fs : List Stage) :
    ∀ v : Dict, dictHasKey v "trace" = true →
      (∀ d ∈ invocationBags fs v true, dictHasKey d "trace" = true) ∧
      (∀ r b, pipeRun fs v true = (some r, b) →
        dictHasKey r "trace" = true ∧ dictHasKey b "trace" = true) := by
  induction fs with
  | nil =>
    intro v hv
    refine ⟨fun d hd => absurd hd (by simp [invocationBags]), fun r b h => ?_⟩
    have hr : v = r := congrArg (fun p => (Prod.fst p).getD []) h
    have hb : v = b := congrArg Prod.snd h
    exact ⟨hr ▸ hv, hb ▸ hv⟩
  | cons f rest ih =>
    intro v hv
    cases hfn : f.fn v with
    | none =>
      constructor
      · intro d hd
        rw [invocationBags, hfn] at hd
        rcases List.mem_cons.mp hd with h | h
        · exact h ▸ hv
        · cases h
      · intro r b h
        rw [pipeRun_cons, hfn] at h
        cases h
    | some result =>
      have hv1 : dictHasKey (dictUpdate v result) "trace" = true :=
        dictHasKey_update result "trace" v hv
      cases hfind : dictFind (dictUpdate v result) "trace" with
      | none =>
        rw [dictHasKey, hfind] at hv1
        cases hv1
      | some w =>
        cases w with
        | list l =>
          have hv2 :
              dictHasKey
                (dictSet (dictUpdate v result) "trace"
                  (Value.list (l ++ [traceEntry f.name result]))) "trace" = true := by
            rw [dictHasKey_set]; simp
          constructor
          · intro d hd
            rw [invocationBags, hfn] at hd
            dsimp only at hd
            rw [if_pos rfl, hfind] at hd
            rcases List.mem_cons.mp hd with h | h
            · exact h ▸ hv
            · exact (ih _ hv2).1 d h
          · intro r b h
            rw [pipeRun_cons, hfn] at h
            dsimp only at h
            rw [if_pos rfl, hfind] at h
            exact (ih _ hv2).2 r b h
        | int n =>
          constructor
          · intro d hd
            rw [invocationBags, hfn] at hd
            dsimp only at hd
            rw [if_pos rfl, hfind] at hd
            rcases List.mem_cons.mp hd with h | h
            · exact h ▸ hv
            · cases h
          · intro r b h
            rw [pipeRun_cons, hfn] at h
            dsimp only at h
            rw [if_pos rfl, hfind] at h
            cases h
        | str s0 =>
          constructor
          · intro d hd
            rw [invocationBags, hfn] at hd
            dsimp only at hd
            rw [if_pos rfl, hfind] at hd
            rcases List.mem_cons.mp hd with h | h
            · exact h ▸ hv
            · cases h
          · intro r b h
            rw [pipeRun_cons, hfn] at h
            dsimp only at h
            rw [if_pos rfl, hfind] at h
            cases h
        | dict d0 =>
          constructor
          · intro d hd
            rw [invocationBags, hfn] at hd
            dsimp only at hd
            rw [if_pos rfl, hfind] at hd
            rcases List.mem_cons.mp hd with h | h
            · exact h ▸ hv
            · cases h
          · intro r b h
            rw [pipeRun_cons, hfn] at h
            dsimp only at h
            rw [if_pos rfl, hfind] at h
            cases h

/-- Claim C10: with tracing enabled, the trace itself lives inside the bag
under the key "trace"; hence every stage invocation receives "trace" as one
of its keyword arguments, and every successful run returns a mapping that
contains "trace" — an invariant established at construction and preserved
by every run. -/
theorem trace_lives_in_bag :
    (∀ v, dictHasKey (pipeInit v true) "trace" = true) ∧
    (∀ (fs : List Stage) (v : Dict), dictHasKey v "trace" = true →
      (∀ d ∈ invocationBags fs v true, dictHasKey d "trace" = true) ∧
      (∀ r b, pipeRun fs v true = (some r, b) →
        dictHasKey r "trace" = true ∧ dictHasKey b "trace" = true)) := by
  constructor
  · intro v
    show dictHasKey (dictSet v "trace" (Value.list [inputEntry v])) "trace" = true
    rw [dictHasKey_set]
    simp
  · intro fs v hv
    exact trace_key_invariant fs v hv

/-- Witness for C10 at a concrete traced pipeline with one benign stage. -/
theorem trace_lives_in_bag_witness :
    dictHasKey (pipeInit [("x", Value.int 1)] true) "trace" = true ∧
    dictHasKey
      ((pipeRun [noopStage "w"] (pipeInit [("x", Value.int 1)] true) true).2) "trace" = true := by
  obtain ⟨h1, h2⟩ := trace_lives_in_bag
  refine ⟨h1 [("x", Value.int 1)], ?_⟩
  exact ((h2 [noopStage "w"] (pipeInit [("x", Value.int 1)] true)
    (h1 [("x", Value.int 1)])).2
    ((pipeRun [noopStage "w"] (pipeInit [("x", Value.int 1)] true) true).2)
    ((pipeRun [noopStage "w"] (pipeInit [("x", Value.int 1)] true) true).2) rfl).2

/-- Witness for C5 at three concrete trace-preserving stages. -/
theorem trace_after_three_stages_witness :
    (traceList
        (pipeRun [noopStage "alpha", noopStage "beta", noopStage "gamma"]
          (pipeInit [("p", Value.int 10)] true) true).2).map List.length = some 4 :=
  (trace_after_three_stages (noopStage "alpha") (noopStage "beta") (noopStage "gamma")
    [("p", Value.int 10)]
    (pipeRun [noopStage "alpha", noopStage "beta", noopStage "gamma"]
      (pipeInit [("p", Value.int 10)] true) true).2
    (pipeRun [noopStage "alpha", noopStage "beta", noopStage "gamma"]
      (pipeInit [("p", Value.int 10)] true) true).2
    (fun d r h => by cases h; rfl)
    (fun d r h => by cases h; rfl)
    (fun d r h => by cases h; rfl)
    rfl).1

/-! Merge lemmas. -/

theorem mergeStep_find_self (merged : Dict) (k : String) (v : Value) :
    dictFind (mergeStep merged (k, v)) k =
      some (match dictFind merged k with
            | some mv => specMergeValue mv v
            | none => v) := by
  unfold mergeStep
  cases hf : dictFind merged k with
  | none => simp [dictFind_set_self]
  | some mv => cases mv <;> cases v <;> simp [dictFind_set_self, specMergeValue]

theorem mergeStep_find_other (merged : Dict) (k k1 : String) (v : Value) (h : k1 ≠ k) :
    dictFind (mergeStep merged (k, v)) k1 = dictFind merged k1 := by
  unfold mergeStep
  cases dictFind merged k with
  | none => exact dictFind_set_other _ _ _ _ h
  | some mv => cases mv <;> cases v <;> simp [dictFind_set_other _ _ _ _ h]

/-- Key-by-key characterization of `custom_merge` over any accumulator
position: the result of a lookup is governed by what each input holds under
that key (the second dict is assumed duplicate-free, as Python dicts are). -/
theorem custom_merge_find (d2 : Dict) (k : String) :
    ∀ d1 : Dict, keysNodup d2 →
      dictFind (custom_merge d1 d2) k =
        match dictFind d1 k, dictFind d2 k with
        | some v1, some v2 => some (specMergeValue v1 v2)
        | some v1, none => some v1
        | none, some v2 => some v2
        | none, none => none := by
  induction d2 with
  | nil =>
    intro d1 _
    show dictFind d1 k = _
    cases dictFind d1 k <;> rfl
  | cons p rest ih =>
    intro d1 hnd
    obtain ⟨pk, pv⟩ := p
    rw [keysNodup, show dictKeys ((pk, pv) :: rest) = pk :: dictKeys rest from rfl,
      List.nodup_cons] at hnd
    show dictFind (custom_merge (mergeStep d1 (pk, pv)) rest) k = _
    rw [ih _ hnd.2]
    by_cases hk : k = pk
    · subst hk
      have h0 : dictFind rest k = none := dictFind_eq_none_of_not_mem_keys _ _ hnd.1
      rw [h0, mergeStep_find_self, dictFind_cons, if_pos rfl]
      cases dictFind d1 k <;> rfl
    · rw [mergeStep_find_other _ _ _ _ hk,
        dictFind_cons, if_neg (fun hh : pk = k => hk hh.symm)]

/-- Claim C7: the merge law of `custom_merge` — the three concrete examples
of the spec, and the general key-by-key rule: a key in both maps combines
two scalars into the ordered pair, a sequence and a scalar by append, a
scalar and a sequence by prepend-then-extend, two sequences by
concatenation, and a key in only one map is copied as-is. -/
theorem custom_merge_law :
    custom_merge [("a", Value.int 1)] [("a", Value.int 2)]
        = [("a", Value.list [Value.int 1, Value.int 2])] ∧
    custom_merge [("a", Value.list [Value.int 1])] [("a", Value.int 2)]
        = [("a", Value.list [Value.int 1, Value.int 2])] ∧
    custom_merge [("a", Value.int 1)] [("b", Value.int 2)]
        = [("a", Value.int 1), ("b", Value.int 2)] ∧
    (∀ (d1 d2 : Dict) (k : String), keysNodup d2 →
      dictFind (custom_merge d1 d2) k =
        match dictFind d1 k, dictFind d2 k with
        | some v1, some v2 => some (specMergeValue v1 v2)
        | some v1, none => some v1
        | none, some v2 => some v2
        | none, none => none) :=
  ⟨rfl, rfl, rfl, fun d1 d2 k h => custom_merge_find d2 k d1 h⟩

/-- Witness for C7's general rule at concrete dicts sharing the key "a". -/
theorem custom_merge_law_witness :
    dictFind
        (custom_merge [("a", Value.int 1), ("c", Value.int 5)]
          [("a", Value.list [Value.int 2]), ("b", Value.int 7)]) "a" =
      match dictFind [("a", Value.int 1), ("c", Value.int 5)] "a",
          dictFind [("a", Value.list [Value.int 2]), ("b", Value.int 7)] "a" with
      | some v1, some v2 => some (specMergeValue v1 v2)
      | some v1, none => some v1
      | none, some v2 => some v2
      | none, none => none :=
  custom_merge_law.2.2.2 [("a", Value.int 1), ("c", Value.int 5)]
    [("a", Value.list [Value.int 2]), ("b", Value.int 7)] "a"
    (by unfold keysNodup dictKeys; decide)

/-! Edge lemmas. -/

theorem outputsAdd_outputs (a b x : String) (s : GraphState) :
    (outputsAdd a b s).outputs x = if x = a then s.outputs a ++ [b] else s.outputs x := rfl

theorem inputsAdd_inputs (b a y : String) (s : GraphState) :
    (inputsAdd b a s).inputs y = if y = b then s.inputs b ++ [a] else s.inputs y := rfl

theorem connect_of_mem (a b : String) (s : GraphState) (h : b ∈ s.outputs a) :
    connect a b s = s := by
  show addOutput 3 a b s = s
  rw [show addOutput 3 a b s
      = if b ∈ s.outputs a then s else addInput 2 b a (outputsAdd a b s) from rfl, if_pos h]

theorem connect_of_inputs_mem (a b : String) (s : GraphState)
    (h1 : b ∉ s.outputs a) (h2 : a ∈ s.inputs b) :
    connect a b s = outputsAdd a b s := by
  show addOutput 3 a b s = outputsAdd a b s
  rw [show addOutput 3 a b s
      = if b ∈ s.outputs a then s else addInput 2 b a (outputsAdd a b s) from rfl, if_neg h1]
  have h2a : a ∈ (outputsAdd a b s).inputs b := h2
  rw [show addInput 2 b a (outputsAdd a b s)
      = if a ∈ (outputsAdd a b s).inputs b then outputsAdd a b s
        else addOutput 1 a b (inputsAdd b a (outputsAdd a b s)) from rfl, if_pos h2a]

theorem connect_effect (a b : String) (s : GraphState)
    (h1 : b ∉ s.outputs a) (h2 : a ∉ s.inputs b) :
    connect a b s = inputsAdd b a (outputsAdd a b s) := by
  show addOutput 3 a b s = _
  rw [show addOutput 3 a b s
      = if b ∈ s.outputs a then s else addInput 2 b a (outputsAdd a b s) from rfl, if_neg h1]
  have h2a : a ∉ (outputsAdd a b s).inputs b := h2
  rw [show addInput 2 b a (outputsAdd a b s)
      = if a ∈ (outputsAdd a b s).inputs b then outputsAdd a b s
        else addOutput 1 a b (inputsAdd b a (outputsAdd a b s)) from rfl, if_neg h2a]
  have hmem : b ∈ (inputsAdd b a (outputsAdd a b s)).outputs a := by
    show b ∈ (outputsAdd a b s).outputs a
    rw [outputsAdd_outputs, if_pos rfl]
    exact List.mem_append_right _ (List.mem_singleton.mpr rfl)
  rw [show addOutput 1 a b (inputsAdd b a (outputsAdd a b s))
      = if b ∈ (inputsAdd b a (outputsAdd a b s)).outputs a then
          inputsAdd b a (outputsAdd a b s)
        else addInput 0 b a (outputsAdd a b (inputsAdd b a (outputsAdd a b s))) from rfl,
    if_pos hmem]

theorem addOutput_fuel_stable (fuel : Nat) (a b : String) (s : GraphState) :
    addOutput (fuel + 3) a b s = addOutput 3 a b s := by
  show addOutput (fuel + 3) a b s = connect a b s
  by_cases h1 : b ∈ s.outputs a
  · rw [show addOutput (fuel + 3) a b s
        = if b ∈ s.outputs a then s else addInput (fuel + 2) b a (outputsAdd a b s) from rfl,
      if_pos h1, connect_of_mem a b s h1]
  · rw [show addOutput (fuel + 3) a b s
        = if b ∈ s.outputs a then s else addInput (fuel + 2) b a (outputsAdd a b s) from rfl,
      if_neg h1]
    by_cases h2 : a ∈ s.inputs b
    · have h2a : a ∈ (outputsAdd a b s).inputs b := h2
      rw [show addInput (fuel + 2) b a (outputsAdd a b s)
          = if a ∈ (outputsAdd a b s).inputs b then outputsAdd a b s
            else addOutput (fuel + 1) a b (inputsAdd b a (outputsAdd a b s)) from rfl,
        if_pos h2a, connect_of_inputs_mem a b s h1 h2]
    · have h2a : a ∉ (outputsAdd a b s).inputs b := h2
      rw [show addInput (fuel + 2) b a (outputsAdd a b s)
          = if a ∈ (outputsAdd a b s).inputs b then outputsAdd a b s
            else addOutput (fuel + 1) a b (inputsAdd b a (outputsAdd a b s)) from rfl,
        if_neg h2a]
      have hmem : b ∈ (inputsAdd b a (outputsAdd a b s)).outputs a := by
        show b ∈ (outputsAdd a b s).outputs a
        rw [outputsAdd_outputs, if_pos rfl]
        exact List.mem_append_right _ (List.mem_singleton.mpr rfl)
      rw [show addOutput (fuel + 1) a b (inputsAdd b a (outputsAdd a b s))
          = if b ∈ (inputsAdd b a (outputsAdd a b s)).outputs a then
              inputsAdd b a (outputsAdd a b s)
            else
              addInput fuel b a (outputsAdd a b (inputsAdd b a (outputsAdd a b s)))
          from rfl,
        if_pos hmem, connect_effect a b s h1 h2]

theorem connect_state_cases (a b : String) (s : GraphState) :
    connect a b s = s ∨ connect a b s = outputsAdd a b s ∨
      connect a b s = inputsAdd b a (outputsAdd a b s) := by
  by_cases h1 : b ∈ s.outputs a
  · exact Or.inl (connect_of_mem a b s h1)
  · by_cases h2 : a ∈ s.inputs b
    · exact Or.inr (Or.inl (connect_of_inputs_mem a b s h1 h2))
    · exact Or.inr (Or.inr (connect_effect a b s h1 h2))

theorem connect_outputs_mono (a b x y : String) (s : GraphState)
    (h : y ∈ s.outputs x) : y ∈ (connect a b s).outputs x := by
  rcases connect_state_cases a b s with hc | hc | hc <;> rw [hc]
  · exact h
  · rw [outputsAdd_outputs]
    by_cases hx : x = a
    · subst hx; rw [if_pos rfl]; exact List.mem_append_left _ h
    · rw [if_neg hx]; exact h
  · show y ∈ (outputsAdd a b s).outputs x
    rw [outputsAdd_outputs]
    by_cases hx : x = a
    · subst hx; rw [if_pos rfl]; exact List.mem_append_left _ h
    · rw [if_neg hx]; exact h

theorem connect_mem (a b : String) (s : GraphState) :
    b ∈ (connect a b s).outputs a := by
  by_cases h1 : b ∈ s.outputs a
  · rw [connect_of_mem a b s h1]; exact h1
  · have hx : b ∈ (outputsAdd a b s).outputs a := by
      rw [outputsAdd_outputs, if_pos rfl]
      exact List.mem_append_right _ (List.mem_singleton.mpr rfl)
    by_cases h2 : a ∈ s.inputs b
    · rw [connect_of_inputs_mem a b s h1 h2]; exact hx
    · rw [connect_effect a b s h1 h2]; exact hx

theorem connect_idem (a b : String) (s : GraphState) :
    connect a b (connect a b s) = connect a b s :=
  connect_of_mem a b _ (connect_mem a b s)

theorem connect_symm (a b : String) (s : GraphState) (h : EdgeSymmetric s) :
    EdgeSymmetric (connect a b s) := by
  by_cases h1 : b ∈ s.outputs a
  · rw [connect_of_mem a b s h1]; exact h
  · have h2 : a ∉ s.inputs b := fun hin => h1 ((h a b).mpr hin)
    rw [connect_effect a b s h1 h2]
    intro x y
    show y ∈ (outputsAdd a b s).outputs x ↔ x ∈ (inputsAdd b a (outputsAdd a b s)).inputs y
    rw [outputsAdd_outputs]
    rw [show (inputsAdd b a (outputsAdd a b s)).inputs y
        = if y = b then s.inputs b ++ [a] else s.inputs y from rfl]
    by_cases hx : x = a <;> by_cases hy : y = b
    · rw [if_pos hx, if_pos hy, hx, hy]
      simp [List.mem_append]
    · rw [if_pos hx, if_neg hy, hx]
      rw [List.mem_append, List.mem_singleton]
      simp [hy, h a y]
    · rw [if_neg hx, if_pos hy, hy]
      rw [List.mem_append, List.mem_singleton]
      simp [hx, h x b]
    · rw [if_neg hx, if_neg hy]
      exact h x y

theorem connectRow_unfold (a b0 : String) (rest : List String) (s : GraphState) :
    connectRow a (b0 :: rest) s = connectRow a rest (connect a b0 s) := rfl

theorem connectRow_effect (l2 : List String) :
    ∀ (a : String) (s : GraphState), l2.Nodup →
      (∀ b ∈ l2, b ∉ s.outputs a ∧ a ∉ s.inputs b) →
      ((connectRow a l2 s).outputs a = s.outputs a ++ l2) ∧
      (∀ b ∈ l2, (connectRow a l2 s).inputs b = s.inputs b ++ [a]) ∧
      (∀ x, x ≠ a → (connectRow a l2 s).outputs x = s.outputs x) ∧
      (∀ y, y ∉ l2 → (connectRow a l2 s).inputs y = s.inputs y) ∧
      ((connectRow a l2 s).nodes = s.nodes) := by
  induction l2 with
  | nil =>
    intro a s _ _
    exact ⟨by simp [connectRow], by simp, fun x _ => rfl, fun y _ => rfl, rfl⟩
  | cons b0 rest ih =>
    intro a s hnd hfresh
    rw [List.nodup_cons] at hnd
    have hb0 := hfresh b0 (List.mem_cons_self b0 rest)
    have heff := connect_effect a b0 s hb0.1 hb0.2
    have hout_a : (connect a b0 s).outputs a = s.outputs a ++ [b0] := by
      rw [heff]
      show (outputsAdd a b0 s).outputs a = _
      rw [outputsAdd_outputs, if_pos rfl]
    have hout_x : ∀ x, x ≠ a → (connect a b0 s).outputs x = s.outputs x := by
      intro x hx
      rw [heff]
      show (outputsAdd a b0 s).outputs x = _
      rw [outputsAdd_outputs, if_neg hx]
    have hin_b0 : (connect a b0 s).inputs b0 = s.inputs b0 ++ [a] := by
      rw [heff]
      show (if b0 = b0 then (outputsAdd a b0 s).inputs b0 ++ [a] else _) = _
      rw [if_pos rfl]; rfl
    have hin_y : ∀ y, y ≠ b0 → (connect a b0 s).inputs y = s.inputs y := by
      intro y hy
      rw [heff]
      show (if y = b0 then (outputsAdd a b0 s).inputs b0 ++ [a]
            else (outputsAdd a b0 s).inputs y) = _
      rw [if_neg hy]; rfl
    have hnodes0 : (connect a b0 s).nodes = s.nodes := by rw [heff]; rfl
    have hfresh1 : ∀ b ∈ rest, b ∉ (connect a b0 s).outputs a ∧ a ∉ (connect a b0 s).inputs b := by
      intro b hb
      have hbne : b ≠ b0 := fun he => hnd.1 (he ▸ hb)
      constructor
      · rw [hout_a, List.mem_append, List.mem_singleton]
        rintro (hmem | hmem)
        · exact (hfresh b (List.mem_cons_of_mem b0 hb)).1 hmem
        · exact hbne hmem
      · rw [hin_y b hbne]
        exact (hfresh b (List.mem_cons_of_mem b0 hb)).2
    obtain ⟨o1, i1, ox, iy, nds⟩ := ih a (connect a b0 s) hnd.2 hfresh1
    rw [connectRow_unfold]
    refine ⟨?_, ?_, ?_, ?_, ?_⟩
    · rw [o1, hout_a, List.append_assoc]; rfl
    · intro b hb
      rcases List.mem_cons.mp hb with hb | hb
      · subst hb
        rw [iy b (fun hmem => hnd.1 hmem), hin_b0]
      · have hbne : b ≠ b0 := fun he => hnd.1 (he ▸ hb)
        rw [i1 b hb, hin_y b hbne]
    · intro x hx
      rw [ox x hx, hout_x x hx]
    · intro y hy
      rw [List.mem_cons] at hy
      push_neg at hy
      rw [iy y hy.2, hin_y y hy.1]
    · rw [nds, hnodes0]

theorem connectTo_unfold (a0 : String) (rest l2 : List String) (s : GraphState) :
    connectTo (a0 :: rest) l2 s = connectTo rest l2 (connectRow a0 l2 s) := rfl

theorem connectTo_fresh (l2 : List String) (hnd2 : l2.Nodup) :
    ∀ (l1 : List String) (s : GraphState), l1.Nodup →
      (∀ a ∈ l1, s.outputs a = []) →
      (∀ a ∈ l1, ∀ b ∈ l2, a ∉ s.inputs b) →
      (∀ a ∈ l1, (connectTo l1 l2 s).outputs a = l2) ∧
      (∀ b ∈ l2, (connectTo l1 l2 s).inputs b = s.inputs b ++ l1) ∧
      (∀ x, x ∉ l1 → (connectTo l1 l2 s).outputs x = s.outputs x) := by
  intro l1
  induction l1 with
  | nil =>
    intro s _ _ _
    exact ⟨fun a ha => absurd ha (List.not_mem_nil a), fun b _ => by simp [connectTo],
      fun x _ => rfl⟩
  | cons a0 rest ih =>
    intro s hnd1 houts hins
    rw [List.nodup_cons] at hnd1
    have hfresh0 : ∀ b ∈ l2, b ∉ s.outputs a0 ∧ a0 ∉ s.inputs b := by
      intro b hb
      refine ⟨?_, hins a0 (List.mem_cons_self a0 rest) b hb⟩
      rw [houts a0 (List.mem_cons_self a0 rest)]
      exact List.not_mem_nil b
    obtain ⟨ro, ri, rox, riy, rnd⟩ := connectRow_effect l2 a0 s hnd2 hfresh0
    have houts1 : ∀ a ∈ rest, (connectRow a0 l2 s).outputs a = [] := by
      intro a ha
      have hane : a ≠ a0 := fun he => hnd1.1 (he ▸ ha)
      rw [rox a hane, houts a (List.mem_cons_of_mem a0 ha)]
    have hins1 : ∀ a ∈ rest, ∀ b ∈ l2, a ∉ (connectRow a0 l2 s).inputs b := by
      intro a ha b hb
      have hane : a ≠ a0 := fun he => hnd1.1 (he ▸ ha)
      rw [ri b hb, List.mem_append, List.mem_singleton]
      rintro (hmem | hmem)
      · exact hins a (List.mem_cons_of_mem a0 ha) b hb hmem
      · exact hane hmem
    obtain ⟨c1, c2, c3⟩ := ih (connectRow a0 l2 s) hnd1.2 houts1 hins1
    rw [connectTo_unfold]
    refine ⟨?_, ?_, ?_⟩
    · intro a ha
      rcases List.mem_cons.mp ha with ha | ha
      · subst ha
        rw [c3 a hnd1.1, ro, houts a (List.mem_cons_self a rest)]
        rfl
      · exact c1 a ha
    · intro b hb
      rw [c2 b hb, ri b hb, List.append_assoc]
      rfl
    · intro x hx
      rw [List.mem_cons] at hx
      push_neg at hx
      rw [c3 x hx.2, rox x hx.1]

theorem connectRow_outputs_mono (l2 : List String) :
    ∀ (a x y : String) (s : GraphState),
      y ∈ s.outputs x → y ∈ (connectRow a l2 s).outputs x := by
  induction l2 with
  | nil => intro a x y s h; exact h
  | cons b0 rest ih =>
    intro a x y s h
    rw [connectRow_unfold]
    exact ih a x y _ (connect_outputs_mono a b0 x y s h)

theorem connectTo_outputs_mono (l1 : List String) (l2 : List String) :
    ∀ (x y : String) (s : GraphState),
      y ∈ s.outputs x → y ∈ (connectTo l1 l2 s).outputs x := by
  induction l1 with
  | nil => intro x y s h; exact h
  | cons a0 rest ih =>
    intro x y s h
    rw [connectTo_unfold]
    exact ih x y _ (connectRow_outputs_mono l2 a0 x y s h)

theorem connectRow_mem (l2 : List String) :
    ∀ (a b : String) (s : GraphState), b ∈ l2 → b ∈ (connectRow a l2 s).outputs a := by
  induction l2 with
  | nil => intro a b s h; cases h
  | cons b0 rest ih =>
    intro a b s h
    rw [connectRow_unfold]
    rcases List.mem_cons.mp h with h | h
    · subst h
      exact connectRow_outputs_mono rest a a b _ (connect_mem a b s)
    · exact ih a b _ h

theorem connectTo_mem (l1 l2 : List String) :
    ∀ (a b : String) (s : GraphState),
      a ∈ l1 → b ∈ l2 → b ∈ (connectTo l1 l2 s).outputs a := by
  induction l1 with
  | nil => intro a b s ha _; cases ha
  | cons a0 rest ih =>
    intro a b s ha hb
    rw [connectTo_unfold]
    rcases List.mem_cons.mp ha with ha | ha
    · subst ha
      exact connectTo_outputs_mono rest l2 a b _ (connectRow_mem l2 a b s hb)
    · exact ih a b _ ha hb

theorem connectRow_saturated (l2 : List String) :
    ∀ (a : String) (s : GraphState),
      (∀ b ∈ l2, b ∈ s.outputs a) → connectRow a l2 s = s := by
  induction l2 with
  | nil => intro a s _; rfl
  | cons b0 rest ih =>
    intro a s h
    rw [connectRow_unfold, connect_of_mem a b0 s (h b0 (List.mem_cons_self b0 rest))]
    exact ih a s (fun b hb => h b (List.mem_cons_of_mem b0 hb))

theorem connectTo_saturated (l1 l2 : List String) :
    ∀ s : GraphState,
      (∀ a ∈ l1, ∀ b ∈ l2, b ∈ s.outputs a) → connectTo l1 l2 s = s := by
  induction l1 with
  | nil => intro s _; rfl
  | cons a0 rest ih =>
    intro s h
    rw [connectTo_unfold,
      connectRow_saturated l2 a0 s (h a0 (List.mem_cons_self a0 rest))]
    exact ih s (fun a ha b hb => h a (List.mem_cons_of_mem a0 ha) b hb)

/-- Claim C6: connecting the same pair twice changes nothing (and from
fresh nodes yields exactly the singleton edge sets), every connect
preserves edge symmetry, and `Layer.connect_to` between fresh layers of
sizes m and n creates exactly m by n directed edge pairs, a second
invocation changing nothing. -/
theorem connect_idempotent_symmetric_bipartite :
    (∀ (s : GraphState) (a b : String), connect a b (connect a b s) = connect a b s) ∧
    (∀ (s : GraphState) (a b : String), EdgeSymmetric s → EdgeSymmetric (connect a b s)) ∧
    (∀ (s : GraphState) (a b : String), s.outputs a = [] → s.inputs b = [] →
      (connect a b (connect a b s)).outputs a = [b] ∧
      (connect a b (connect a b s)).inputs b = [a]) ∧
    (∀ (l1 l2 : List String) (s : GraphState),
      connectTo l1 l2 (connectTo l1 l2 s) = connectTo l1 l2 s) ∧
    (∀ (l1 l2 : List String) (s : GraphState), l1.Nodup → l2.Nodup →
      (∀ a ∈ l1, s.outputs a = []) → (∀ b ∈ l2, s.inputs b = []) →
      (∀ a ∈ l1, (connectTo l1 l2 s).outputs a = l2) ∧
      (∀ b ∈ l2, (connectTo l1 l2 s).inputs b = l1) ∧
      (l1.map fun a => ((connectTo l1 l2 s).outputs a).length).sum
        = l1.length * l2.length) := by
  refine ⟨fun s a b => connect_idem a b s, fun s a b => connect_symm a b s, ?_, ?_, ?_⟩
  · intro s a b ho hi
    have h1 : b ∉ s.outputs a := ho ▸ List.not_mem_nil b
    have h2 : a ∉ s.inputs b := hi ▸ List.not_mem_nil a
    rw [connect_idem a b s, connect_effect a b s h1 h2]
    constructor
    · show (outputsAdd a b s).outputs a = [b]
      rw [outputsAdd_outputs, if_pos rfl, ho]
      rfl
    · show (if b = b then (outputsAdd a b s).inputs b ++ [a]
            else (outputsAdd a b s).inputs b) = [a]
      rw [if_pos rfl]
      show s.inputs b ++ [a] = [a]
      rw [hi]
      rfl
  · intro l1 l2 s
    exact connectTo_saturated l1 l2 _ (fun a ha b hb => connectTo_mem l1 l2 a b s ha hb)
  · intro l1 l2 s hnd1 hnd2 houts hins
    have hins2 : ∀ a ∈ l1, ∀ b ∈ l2, a ∉ s.inputs b := by
      intro a _ b hb
      rw [hins b hb]
      exact List.not_mem_nil a
    obtain ⟨c1, c2, _⟩ := connectTo_fresh l2 hnd2 l1 s hnd1 houts hins2
    have c2a : ∀ b ∈ l2, (connectTo l1 l2 s).inputs b = l1 := by
      intro b hb
      rw [c2 b hb, hins b hb]
      rfl
    refine ⟨c1, c2a, ?_⟩
    have hconst : ∀ (l : List String) (c : Nat), (l.map fun _ => c).sum = l.length * c := by
      intro l c
      induction l with
      | nil => simp
      | cons hd t ih =>
        rw [List.map_cons, List.sum_cons, ih, List.length_cons, Nat.succ_mul, Nat.add_comm]
    rw [List.map_congr_left (fun a ha => by rw [c1 a ha])]
    exact hconst l1 l2.length

/-- Witness for C6 at concrete nodes and layers starting from a fresh
edge state. -/
theorem connect_idempotent_symmetric_bipartite_witness :
    connect "a" "b" (connect "a" "b" freshEdges) = connect "a" "b" freshEdges ∧
    EdgeSymmetric (connect "a" "b" freshEdges) ∧
    (connect "a" "b" (connect "a" "b" freshEdges)).outputs "a" = ["b"] ∧
    (connectTo ["a", "b"] ["c", "d"] freshEdges).outputs "a" = ["c", "d"] ∧
    (connectTo ["a", "b"] ["c", "d"] freshEdges).inputs "c" = ["a", "b"] := by
  obtain ⟨h1, h2, h3, h4, h5⟩ := connect_idempotent_symmetric_bipartite
  obtain ⟨g1, g2, _⟩ := h5 ["a", "b"] ["c", "d"] freshEdges (by decide) (by decide)
    (fun a _ => rfl) (fun b _ => rfl)
  refine ⟨h1 freshEdges "a" "b",
    h2 freshEdges "a" "b" (fun x y => by constructor <;> intro hmem <;> cases hmem),
    (h3 freshEdges "a" "b" rfl rfl).1,
    g1 "a" (by decide), g2 "c" (by decide)⟩

/-! Node-processing lemmas. -/

theorem setNode_nodes_self (name : String) (n : NodeState) (s : GraphState) :
    (setNode name n s).nodes name = n := by
  show (if name = name then n else s.nodes name) = n
  rw [if_pos rfl]

theorem setNode_nodes_other (name m : String) (n : NodeState) (s : GraphState)
    (h : m ≠ name) : (setNode name n s).nodes m = s.nodes m := by
  show (if m = name then n else s.nodes m) = s.nodes m
  rw [if_neg h]

theorem setNodeData_effects (o : String) (v : Option Dict) (s : GraphState) :
    ((setNodeData o v s).nodes o = { s.nodes o with data := v }) ∧
    (∀ m, m ≠ o → (setNodeData o v s).nodes m = s.nodes m) ∧
    ((setNodeData o v s).outputs = s.outputs) ∧
    ((setNodeData o v s).inputs = s.inputs) :=
  ⟨setNode_nodes_self o _ s, fun m hm => setNode_nodes_other o m _ s hm, rfl, rfl⟩

theorem dataStep_eq (name : String) (s : GraphState) :
    dataStep name s =
      match (s.nodes name).data with
      | some d =>
          setNode name
            { s.nodes name with data_history := (s.nodes name).data_history ++ [d] } s
      | none => s := rfl

theorem dataStep_effects (name : String) (s : GraphState) :
    (((dataStep name s).nodes name).data = (s.nodes name).data) ∧
    (((dataStep name s).nodes name).data_history
        = (s.nodes name).data_history ++ histApp ((s.nodes name).data)) ∧
    (((dataStep name s).nodes name).kind = (s.nodes name).kind) ∧
    (∀ m, m ≠ name → (dataStep name s).nodes m = s.nodes m) ∧
    ((dataStep name s).outputs = s.outputs) ∧
    ((dataStep name s).inputs = s.inputs) := by
  rw [dataStep_eq]
  cases hd : (s.nodes name).data with
  | none =>
    exact ⟨hd, by simp [histApp], rfl, fun m _ => rfl, rfl, rfl⟩
  | some d =>
    refine ⟨?_, ?_, ?_, fun m hm => setNode_nodes_other name m _ s hm, rfl, rfl⟩
    · rw [setNode_nodes_self]
      exact hd
    · rw [setNode_nodes_self]
      rfl
    · rw [setNode_nodes_self]

theorem processNode_succ (fuel : Nat) (name : String) (s : GraphState) :
    processNode (fuel + 1) name s =
      match (s.nodes name).kind with
      | NodeKind.dataNode =>
          processOutputs fuel name ((dataStep name s).outputs name) (dataStep name s)
      | NodeKind.processingNode =>
          processOutputs fuel name ((processingStep name s).outputs name)
            (processingStep name s)
      | NodeKind.mixerNode =>
          if 2 ≤ (s.inputs name).length then (s, false) else (s, true) := rfl

theorem processOutputs_nil (fuel : Nat) (self : String) (s : GraphState) :
    processOutputs fuel self [] s = (s, true) := rfl

theorem processOutputs_cons (fuel : Nat) (self o : String) (rest : List String)
    (s : GraphState) :
    processOutputs fuel self (o :: rest) s =
      match processNode fuel o (setNodeData o (pushValue ((s.nodes self).data)) s) with
      | (s2, true) => processOutputs fuel self rest s2
      | (s2, false) => (s2, false) := rfl

/-- Processing one fresh leaf DataNode `o` after the push: the call returns
normally and amounts to recording the pushed value (when present) in the
leaf's history. -/
theorem processNode_leaf (fuel : Nat) (o : String) (s1 : GraphState)
    (hk : (s1.nodes o).kind = NodeKind.dataNode)
    (ho : s1.outputs o = []) :
    processNode (fuel + 1) o s1 = (dataStep o s1, true) := by
  rw [processNode_succ, hk]
  have houts : (dataStep o s1).outputs o = [] := by
    rw [(dataStep_effects o s1).2.2.2.2.1, ho]
  rw [houts, processOutputs_nil]

/-- Distributing to a list of fresh, pairwise-distinct leaf DataNodes:
each leaf's data becomes the pushed value, each leaf's history grows by the
pushed snapshot when one is present, every other node is untouched, and no
exception escapes. -/
theorem processOutputs_leaf_effects (L : List String) :
    ∀ (fuel : Nat) (self : String) (s : GraphState),
      L.Nodup → self ∉ L →
      (∀ o ∈ L, (s.nodes o).kind = NodeKind.dataNode ∧ s.outputs o = []) →
      ((processOutputs (fuel + 1) self L s).2 = true) ∧
      (∀ o ∈ L,
        ((processOutputs (fuel + 1) self L s).1.nodes o).data
            = pushValue ((s.nodes self).data) ∧
        ((processOutputs (fuel + 1) self L s).1.nodes o).data_history
            = (s.nodes o).data_history ++ histApp (pushValue ((s.nodes self).data))) ∧
      (∀ m, m ∉ L → (processOutputs (fuel + 1) self L s).1.nodes m = s.nodes m) ∧
      ((processOutputs (fuel + 1) self L s).1.outputs = s.outputs) ∧
      ((processOutputs (fuel + 1) self L s).1.inputs = s.inputs) := by
  induction L with
  | nil =>
    intro fuel self s _ _ _
    rw [processOutputs_nil]
    exact ⟨rfl, fun o ho => absurd ho (List.not_mem_nil o),
      fun m _ => rfl, rfl, rfl⟩
  | cons o rest ih =>
    intro fuel self s hnd hself hleaf
    rw [List.nodup_cons] at hnd
    rw [List.mem_cons] at hself
    push_neg at hself
    have hcond := hleaf o (List.mem_cons_self o rest)
    obtain ⟨hs1o, hs1m, hs1out, hs1in⟩ :=
      setNodeData_effects o (pushValue ((s.nodes self).data)) s
    have hk1 : ((setNodeData o (pushValue ((s.nodes self).data)) s).nodes o).kind
        = NodeKind.dataNode := by
      rw [hs1o]
      exact hcond.1
    have ho1 : (setNodeData o (pushValue ((s.nodes self).data)) s).outputs o = [] := by
      rw [hs1out]
      exact hcond.2
    have hproc := processNode_leaf fuel o _ hk1 ho1
    rw [processOutputs_cons, hproc]
    obtain ⟨hd2, hh2, _, hm2, hout2, hin2⟩ :=
      dataStep_effects o (setNodeData o (pushValue ((s.nodes self).data)) s)
    have hdata2 : (((dataStep o (setNodeData o (pushValue ((s.nodes self).data)) s)).nodes
        o).data) = pushValue ((s.nodes self).data) := by
      rw [hd2, hs1o]
    have hhist2 : (((dataStep o (setNodeData o (pushValue ((s.nodes self).data)) s)).nodes
        o).data_history)
        = (s.nodes o).data_history ++ histApp (pushValue ((s.nodes self).data)) := by
      rw [hh2, hs1o]
    have hother2 : ∀ m, m ≠ o →
        (dataStep o (setNodeData o (pushValue ((s.nodes self).data)) s)).nodes m
          = s.nodes m := by
      intro m hm
      rw [hm2 m hm, hs1m m hm]
    have houtf : (dataStep o (setNodeData o (pushValue ((s.nodes self).data)) s)).outputs
        = s.outputs := by rw [hout2, hs1out]
    have hinf : (dataStep o (setNodeData o (pushValue ((s.nodes self).data)) s)).inputs
        = s.inputs := by rw [hin2, hs1in]
    have hselfkeep : (dataStep o (setNodeData o (pushValue ((s.nodes self).data)) s)).nodes
        self = s.nodes self := hother2 self (fun he => hself.1 he)
    have hleaf2 : ∀ b ∈ rest,
        ((dataStep o (setNodeData o (pushValue ((s.nodes self).data)) s)).nodes b).kind
            = NodeKind.dataNode ∧
        (dataStep o (setNodeData o (pushValue ((s.nodes self).data)) s)).outputs b = [] := by
      intro b hb
      have hbne : b ≠ o := fun he => hnd.1 (he ▸ hb)
      rw [hother2 b hbne, houtf]
      exact hleaf b (List.mem_cons_of_mem o hb)
    obtain ⟨f1, f2, f3, f4, f5⟩ :=
      ih fuel self (dataStep o (setNodeData o (pushValue ((s.nodes self).data)) s))
        hnd.2 hself.2 hleaf2
    rw [hselfkeep] at f2
    refine ⟨f1, ?_, ?_, by rw [f4, houtf], by rw [f5, hinf]⟩
    · intro b hb
      rcases List.mem_cons.mp hb with hb | hb
      · subst hb
        rw [f3 b (fun hmem => hnd.1 hmem), hdata2, hhist2]
        exact ⟨rfl, rfl⟩
      · obtain ⟨g1, g2⟩ := f2 b hb
        have hbne : b ≠ o := fun he => hnd.1 (he ▸ hb)
        rw [g1, g2, hother2 b hbne]
        exact ⟨rfl, rfl⟩
    · intro m hm
      rw [List.mem_cons] at hm
      push_neg at hm
      rw [f3 m hm.2, hother2 m hm.1]

theorem processingStep_failure (name : String) (s : GraphState) (d : Dict) (p : PipeState)
    (b : Dict)
    (hd : (s.nodes name).data = some d)
    (hp : (s.nodes name).pipeline = some p)
    (hrun : pipeRun p.functions (dictUpdate p.value d) p.trace = (none, b)) :
    processingStep name s =
      setNode name { s.nodes name with pipeline := some { p with value := b } } s := by
  unfold processingStep
  dsimp only
  rw [hd, hp]
  dsimp only
  rw [hrun]

/-- Claim C4 counterexample: a DataNode whose data is the empty dict.  The
data is present (a snapshot is even appended to the history), yet the
output neighbor receives absent data rather than a copy of the empty dict —
Python's truthiness test `if self.data` conflates empty with absent. -/
theorem dataNode_empty_data_push_cex :
    ((processNode 5 "d" emptyDataPushState).1.nodes "d").data = some [] ∧
    ((processNode 5 "d" emptyDataPushState).1.nodes "d").data_history = [[]] ∧
    ((processNode 5 "d" emptyDataPushState).1.nodes "o").data = none :=
  ⟨rfl, rfl, rfl⟩

/-- Claim C4 (amended): DataNode.process appends a snapshot of its data to
its history exactly when the data is present, then pushes to every output
neighbor, in order, a copy of its data when that data is present and
non-empty — and absent data when its data is absent or empty — invoking
each neighbor's process (shown here on fresh, pairwise-distinct leaf
neighbors, whose own histories record the pushed value). -/
theorem dataNode_process_snapshot_and_push (fuel : Nat) (name : String) (s : GraphState)
    (hk : (s.nodes name).kind = NodeKind.dataNode)
    (hnd : (s.outputs name).Nodup)
    (hself : name ∉ s.outputs name)
    (hleaf : ∀ o ∈ s.outputs name,
      (s.nodes o).kind = NodeKind.dataNode ∧ s.outputs o = []) :
    ((processNode (fuel + 2) name s).2 = true) ∧
    (((processNode (fuel + 2) name s).1.nodes name).data_history
        = (s.nodes name).data_history ++ histApp ((s.nodes name).data)) ∧
    (((processNode (fuel + 2) name s).1.nodes name).data = (s.nodes name).data) ∧
    (∀ o ∈ s.outputs name,
      ((processNode (fuel + 2) name s).1.nodes o).data
          = pushValue ((s.nodes name).data) ∧
      ((processNode (fuel + 2) name s).1.nodes o).data_history
          = (s.nodes o).data_history ++ histApp (pushValue ((s.nodes name).data))) := by
  obtain ⟨e1, e2, _, e4, e5, _⟩ := dataStep_effects name s
  have heq : processNode (fuel + 2) name s
      = processOutputs (fuel + 1) name (s.outputs name) (dataStep name s) := by
    rw [processNode_succ, hk, e5]
  have hleaf1 : ∀ o ∈ s.outputs name,
      ((dataStep name s).nodes o).kind = NodeKind.dataNode ∧
      (dataStep name s).outputs o = [] := by
    intro o ho
    have hone : o ≠ name := fun he => hself (he ▸ ho)
    rw [e4 o hone, e5]
    exact hleaf o ho
  obtain ⟨f1, f2, f3, _, _⟩ :=
    processOutputs_leaf_effects (s.outputs name) fuel name (dataStep name s) hnd hself hleaf1
  rw [heq]
  have hpz : pushValue (((dataStep name s).nodes name).data)
      = pushValue ((s.nodes name).data) := by rw [e1]
  refine ⟨f1, ?_, ?_, ?_⟩
  · rw [f3 name hself, e2]
  · rw [f3 name hself, e1]
  · intro o ho
    obtain ⟨g1, g2⟩ := f2 o ho
    have hone : o ≠ name := fun he => hself (he ▸ ho)
    rw [g1, g2, hpz, e4 o hone]
    exact ⟨rfl, rfl⟩

/-- Witness for C4 at a concrete DataNode with non-empty data and one
fresh leaf neighbor. -/
theorem dataNode_process_snapshot_and_push_witness :
    ((processNode 7 "p" fanoutState).1.nodes "q").data
        = pushValue ((fanoutState.nodes "p").data) ∧
    ((processNode 7 "p" fanoutState).1.nodes "p").data_history
        = (fanoutState.nodes "p").data_history
            ++ histApp ((fanoutState.nodes "p").data) := by
  have h := dataNode_process_snapshot_and_push 5 "p" fanoutState rfl (by decide) (by decide)
    (fun o ho => by
      have he : o = "q" := List.mem_singleton.mp ho
      subst he
      exact ⟨rfl, rfl⟩)
  exact ⟨(h.2.2.2 "q" (by decide)).1, h.2.1⟩

/-- Claim C3 counterexample: a ProcessingNode whose stale data is the empty
dict and whose pipeline run fails.  The data stays unchanged and no error
escapes, but the output neighbor receives absent data, not the current
(empty) data — the same truthiness conflation as in DataNode. -/
theorem processing_stale_empty_push_cex :
    ((processNode 5 "t" emptyProcessingPushState).1.nodes "t").data = some [] ∧
    ((processNode 5 "t" emptyProcessingPushState).1.nodes "o").data = none ∧
    (processNode 5 "t" emptyProcessingPushState).2 = true :=
  ⟨rfl, rfl, rfl⟩

/-- Claim C3 (amended): when a ProcessingNode's pipeline run fails, the
node's data is left unchanged (stale data persists), no error escapes the
pipeline, and propagation to outputs proceeds as in DataNode: each output
neighbor receives a copy of the current data when it is non-empty — absent
data when the current data is empty — and its process is invoked (shown on
fresh, pairwise-distinct leaf neighbors). -/
theorem processing_failure_keeps_data_and_propagates (fuel : Nat) (name : String)
    (s : GraphState) (d : Dict) (p : PipeState) (b : Dict)
    (hk : (s.nodes name).kind = NodeKind.processingNode)
    (hd : (s.nodes name).data = some d)
    (hp : (s.nodes name).pipeline = some p)
    (hrun : pipeRun p.functions (dictUpdate p.value d) p.trace = (none, b)) :
    (((processingStep name s).nodes name).data = some d) ∧
    (processNode (fuel + 1) name s
        = processOutputs fuel name (s.outputs name) (processingStep name s)) ∧
    ((s.outputs name).Nodup → name ∉ s.outputs name →
      (∀ o ∈ s.outputs name, (s.nodes o).kind = NodeKind.dataNode ∧ s.outputs o = []) →
      ((processNode (fuel + 2) name s).2 = true ∧
       (((processNode (fuel + 2) name s).1.nodes name).data = some d) ∧
       (∀ o ∈ s.outputs name,
         ((processNode (fuel + 2) name s).1.nodes o).data = pushValue (some d)))) := by
  have hstep := processingStep_failure name s d p b hd hp hrun
  have hdata1 : ((processingStep name s).nodes name).data = some d := by
    rw [hstep, setNode_nodes_self]
    exact hd
  have houts1 : (processingStep name s).outputs = s.outputs := by rw [hstep]; rfl
  have heq : ∀ f : Nat, processNode (f + 1) name s
      = processOutputs f name (s.outputs name) (processingStep name s) := by
    intro f
    rw [processNode_succ, hk, houts1]
  refine ⟨hdata1, heq fuel, ?_⟩
  intro hnd hself hleaf
  have hnodes1 : ∀ m, m ≠ name → (processingStep name s).nodes m = s.nodes m := by
    intro m hm
    rw [hstep, setNode_nodes_other name m _ s hm]
  have hleaf1 : ∀ o ∈ s.outputs name,
      ((processingStep name s).nodes o).kind = NodeKind.dataNode ∧
      (processingStep name s).outputs o = [] := by
    intro o ho
    have hone : o ≠ name := fun he => hself (he ▸ ho)
    rw [hnodes1 o hone, houts1]
    exact hleaf o ho
  obtain ⟨f1, f2, f3, _, _⟩ :=
    processOutputs_leaf_effects (s.outputs name) fuel name (processingStep name s)
      hnd hself hleaf1
  have heq2 := heq (fuel + 1)
  rw [heq2]
  have hpush : pushValue (((processingStep name s).nodes name).data)
      = pushValue (some d) := by rw [hdata1]
  refine ⟨f1, ?_, ?_⟩
  · rw [f3 name hself, hdata1]
  · intro o ho
    obtain ⟨g1, _⟩ := f2 o ho
    rw [g1, hpush]

/-- Witness for C3 at a concrete ProcessingNode with non-empty stale data,
a failing single stage, and one fresh leaf neighbor. -/
theorem processing_failure_keeps_data_and_propagates_witness :
    ((processNode 7 "t" staleProcState).1.nodes "t").data
        = some [("k", Value.int 9)] ∧
    ((processNode 7 "t" staleProcState).1.nodes "o").data
        = pushValue (some [("k", Value.int 9)]) := by
  have h := processing_failure_keeps_data_and_propagates 5 "t" staleProcState
    [("k", Value.int 9)] ⟨[], false, [⟨"boom", fun _ => none⟩]⟩ [("k", Value.int 9)]
    rfl rfl rfl rfl
  obtain ⟨-, -, h3⟩ := h
  obtain ⟨-, h5, h6⟩ := h3 (by decide) (by decide)
    (fun o ho => by
      have he : o = "o" := List.mem_singleton.mp ho
      subst he
      exact ⟨rfl, rfl⟩)
  exact ⟨h5, h6 "o" (by decide)⟩

/-- Claim C1 (code bug): a MixerNode with two input edges.  The spec says
process() selects the first two inputs, merges their data, stores the
result, and propagates; the code instead evaluates `self.inputs[0]` on a
`weakref.WeakSet`, which supports no subscripting, so process() raises a
`TypeError` — no merge is computed, no data is stored, no output is
processed, and the exception escapes the node (the `false` flag). -/
theorem mixer_process_two_inputs_raises :
    (mixerTwoInputs.inputs "MixerNode").length = 2 ∧
    processNode 5 "MixerNode" mixerTwoInputs = (mixerTwoInputs, false) :=
  ⟨rfl, rfl⟩

/-- Claim C8: Layer.process invokes process() on every node in stored
order, and a failure escaping one node's processing is caught at the layer
boundary: the remaining nodes of the layer are still processed, from the
state the failed call left behind. -/
theorem layer_processes_all_nodes :
    (∀ (fuel : Nat) (pre : List String) (n : String) (post : List String) (s : GraphState),
      layerProcess fuel (pre ++ n :: post) s =
        layerProcess fuel post (processNode fuel n (layerProcess fuel pre s)).1) ∧
    (∀ (fuel : Nat) (n : String) (post : List String) (s : GraphState),
      (processNode fuel n s).2 = false →
      layerProcess fuel (n :: post) s = layerProcess fuel post (processNode fuel n s).1) := by
  constructor
  · intro fuel pre n post s
    simp only [layerProcess, List.foldl_append, List.foldl_cons]
  · intro fuel n post s _
    rfl

/-- Witness for C8: a layer holding a failing MixerNode followed by a
healthy sibling — the sibling is still processed. -/
theorem layer_processes_all_nodes_witness :
    layerProcess 5 ["MixerNode", "a"] mixerTwoInputs =
      layerProcess 5 ["a"] (processNode 5 "MixerNode" mixerTwoInputs).1 ∧
    (processNode 5 "MixerNode" mixerTwoInputs).2 = false :=
  ⟨layer_processes_all_nodes.2 5 "MixerNode" ["a"] mixerTwoInputs rfl, rfl⟩

/-- Claim C9: in the linear 3-layer chain Input(passthrough = 10) → Adder
(add 5) → Squarer (square) → Output, one process() of the entry layer
leaves the adder holding passthrough = 15, the squarer holding
passthrough = 225, and the output node's history equal to exactly that
one snapshot. -/
theorem linear_chain_end_to_end :
    ((chainResult.nodes "AdderNode").data = some [("passthrough", Value.int 15)]) ∧
    ((chainResult.nodes "SquarerNode").data = some [("passthrough", Value.int 225)]) ∧
    ((chainResult.nodes "OutputNode").data_history = [[("passthrough", Value.int 225)]]) :=
  ⟨rfl, rfl, rfl⟩

end GraphProcessing
